import Mathlib

/-!
Verification of the WinThreadPool repository (src/win_thread_pool.c).

The C program implements a fixed-size worker-thread pool over a singly
linked FIFO task queue guarded by one critical section and one condition
variable.  This file gives a shallow embedding of the program:

* the heap of `struct Task` records and of argument buffers is modelled as
  association lists from addresses (`Nat`) to contents, with a monotone
  allocation counter `nextAddr` standing for `malloc`;
* `thread_pool_add_task`, the dequeue step of `thread_pool_work_loop`,
  `thread_pool_join_all` and `thread_pool_destroy` are translated
  operation by operation;
* the locked sections of the C code execute atomically with respect to
  each other, so the pool-level semantics is a transition system whose
  events are the individual locked critical sections (submit, dequeue,
  join); ghost fields `submitted`, `dequeued`, `executed` record the
  observable history;
* the instruction-level structure of `thread_pool_work_loop` (lock,
  guarded wait, pop, unlock, execute), including the
  `SleepConditionVariableCS` failure path, is modelled separately as a
  per-worker micro state machine that records every access to the shared
  fields `taskQueueHead` / `running` together with whether the worker
  held the critical section at that moment.
-/

/-- Model of `struct Task`: the callable is an opaque function-pointer id,
`taskArgs` is a pointer to an argument buffer or NULL, `next` is a pointer
to the following record or NULL. -/
structure Node where
  task : Nat
  taskArgs : Option Nat
  next : Option Nat
deriving DecidableEq, Repr

/-- Model of `struct ThreadPool` together with the heap it owns and the
ghost history of the execution.  `nodes` is the heap of live `struct Task`
allocations in allocation order, `bufs` the heap of live argument buffers
(each a list of bytes), `nextAddr` the allocator counter.  `submitted`,
`dequeued` list task-record addresses in submission resp. dequeue order;
`executed` lists the callables that have been invoked, in invocation
order. -/
structure PoolState where
  running : Bool
  threads : List Nat
  nodes : List (Nat × Node)
  bufs : List (Nat × List Nat)
  taskQueueHead : Option Nat
  taskQueueTail : Option Nat
  nextAddr : Nat
  submitted : List Nat
  dequeued : List Nat
  executed : List Nat
deriving DecidableEq, Repr

/-- Read a heap cell: the value stored at address `a`, if allocated. -/
def heapFind {α : Type} (l : List (Nat × α)) (a : Nat) : Option α :=
  (l.find? (fun p => p.1 == a)).map Prod.snd

/-- Free a heap cell: remove the allocation at address `a`. -/
def heapErase {α : Type} (l : List (Nat × α)) (a : Nat) : List (Nat × α) :=
  l.filter (fun p => !(p.1 == a))

/-- The pointer write `tail->next = temp` of `thread_pool_add_task`:
update the `next` field of the record stored at address `t`. -/
def setNext (l : List (Nat × Node)) (t : Nat) (nx : Option Nat) : List (Nat × Node) :=
  l.map (fun p => if p.1 = t then (p.1, { p.2 with next := nx }) else p)

/-- The locked enqueue section of `thread_pool_add_task` (lines 205-216 of
the C file): if `taskQueueHead == NULL` both head and tail are set to the
new record, otherwise `taskQueueTail->next = temp; taskQueueTail = temp`.
The final `| none => s` arm corresponds to a state with a non-NULL head
and an unset tail, which the C code never reaches (proved below as part of
the reachability invariant). -/
def enqueueNode (s : PoolState) (a : Nat) (temp : Node) : PoolState :=
  match s.taskQueueHead with
  | none =>
      { s with nodes := s.nodes ++ [(a, temp)],
               taskQueueHead := some a, taskQueueTail := some a,
               submitted := s.submitted ++ [a] }
  | some _ =>
      match s.taskQueueTail with
      | some t =>
          { s with nodes := setNext s.nodes t (some a) ++ [(a, temp)],
                   taskQueueTail := some a,
                   submitted := s.submitted ++ [a] }
      | none => s

/-- `thread_pool_add_task(pool, taskFunc, taskArgs, argsSize)`: allocate a
record (address `s.nextAddr`), then, if `taskArgs` is non-NULL, allocate a
fresh buffer (address `s.nextAddr + 1`) holding a copy of the first
`argsSize` bytes of the caller's data (`memcpy`); a NULL `taskArgs` stores
a NULL pointer and ignores `argsSize`.  Finally enqueue under the lock.
The caller's argument is modelled as the byte list it points to. -/
def thread_pool_add_task (s : PoolState) (f : Nat) (taskArgs : Option (List Nat))
    (argsSize : Nat) : PoolState :=
  let nodeAddr := s.nextAddr
  match taskArgs with
  | some callerBytes =>
      let temp : Node := { task := f, taskArgs := some (nodeAddr + 1), next := none }
      enqueueNode
        { s with bufs := s.bufs ++ [(nodeAddr + 1, callerBytes.take argsSize)],
                 nextAddr := nodeAddr + 2 }
        nodeAddr temp
  | none =>
      let temp : Node := { task := f, taskArgs := none, next := none }
      enqueueNode { s with nextAddr := nodeAddr + 1 } nodeAddr temp

/-- The pointer manipulation shared by the worker's dequeue (lines 94-106)
and the drain loop of `thread_pool_destroy` (lines 175-181): read the head
record, advance `taskQueueHead` to its `next`, free the record's argument
buffer (`free(NULL)` is a no-op) and the record itself.  `taskQueueTail`
is left untouched, exactly as in the C code.  Returns the popped address,
the record, and the new state; `none` when `taskQueueHead == NULL`. -/
def popRecord (s : PoolState) : Option (Nat × Node × PoolState) :=
  match s.taskQueueHead with
  | none => none
  | some h =>
      match heapFind s.nodes h with
      | none => none
      | some nd =>
          some (h, nd,
            { s with taskQueueHead := nd.next,
                     nodes := heapErase s.nodes h,
                     bufs := match nd.taskArgs with
                             | some b => heapErase s.bufs b
                             | none => s.bufs })

/-- One successful pass of `thread_pool_work_loop` past the wait: pop the
head record under the lock, release the lock, invoke the callable, free
the argument buffer and the record.  Possible exactly when
`taskQueueHead != NULL`; the ghost fields record the dequeue and the
invocation. -/
def worker_dequeue (s : PoolState) : Option PoolState :=
  match popRecord s with
  | none => none
  | some (h, nd, s') =>
      some { s' with dequeued := s'.dequeued ++ [h],
                     executed := s'.executed ++ [nd.task] }

/-- The locked body of `thread_pool_join_all` on a non-NULL pool: if
`running` is already false nothing happens, otherwise `running` is set to
false under the lock (waking the workers and waiting for them does not
change the pool fields). -/
def joinAllState (s : PoolState) : PoolState :=
  if s.running then { s with running := false } else s

/-- `thread_pool_join_all(pool)`: returns immediately when `pool == NULL`
or `running` is already false; otherwise clears `running` under the
lock. -/
def thread_pool_join_all (p : Option PoolState) : Option PoolState :=
  match p with
  | none => none
  | some s => some (joinAllState s)

/-- The drain loop of `thread_pool_destroy`: repeatedly free the head
record and its argument buffer until `taskQueueHead == NULL`.  The fuel
argument bounds the iteration count; `thread_pool_destroy` passes the
number of live records, which suffices for every state the program can
reach (each pass frees one live record). -/
def drainLoop : Nat → PoolState → PoolState
  | 0, s => s
  | k + 1, s =>
      match popRecord s with
      | none => s
      | some (_, _, s') => drainLoop k s'

/-- `thread_pool_destroy(pool)`: first calls `thread_pool_join_all(pool)`,
which tolerates NULL, then unconditionally dereferences
`pool->taskQueueHead` to drain the queue — with `pool == NULL` that
dereference is a fault, modelled as `Except.error ()`.  On a non-NULL pool
it frees every queued record and buffer and returns the drained state
(the final `free(pool)` releases the structure itself). -/
def thread_pool_destroy (p : Option PoolState) : Except Unit PoolState :=
  match thread_pool_join_all p with
  | none => Except.error ()
  | some s1 => Except.ok (drainLoop s1.nodes.length s1)

/-- `create_thread_pool(threadNum)` on the success path: empty queue,
`running = 1`, `threadNum` spawned workers, no allocations yet. -/
def create_thread_pool (threadNum : Nat) : PoolState :=
  { running := true, threads := List.range threadNum,
    nodes := [], bufs := [],
    taskQueueHead := none, taskQueueTail := none, nextAddr := 0,
    submitted := [], dequeued := [], executed := [] }

/-- The `CreateThread` loop of `create_thread_pool`: spawn workers
`i, i+1, ...` one at a time; a `NULL` handle (modelled by the oracle
`ok` returning `false`) makes the process call `exit(EXIT_FAILURE)`,
modelled as `none`. -/
def spawnThreads (ok : Nat → Bool) : Nat → Nat → Option (List Nat)
  | _, 0 => some []
  | i, k + 1 =>
      if ok i then (spawnThreads ok (i + 1) k).map (fun ts => i :: ts)
      else none

/-- `create_thread_pool(threadNum)` with its failure paths: the two
`safe_malloc` calls (pool structure, thread-handle array) terminate the
process on failure, as does any failing `CreateThread`; `none` models the
process terminating, so a partially constructed pool is never returned. -/
def create_thread_pool_run (threadNum : Nat) (mallocPoolOk mallocThreadsOk : Bool)
    (threadOk : Nat → Bool) : Option PoolState :=
  if mallocPoolOk then
    if mallocThreadsOk then
      (spawnThreads threadOk 0 threadNum).map (fun ts =>
        { running := true, threads := ts,
          nodes := [], bufs := [],
          taskQueueHead := none, taskQueueTail := none, nextAddr := 0,
          submitted := [], dequeued := [], executed := [] })
    else none
  else none

/-- The pool-level events: each is one locked critical section of the C
program (a submission, a worker's dequeue-and-run pass, a shutdown
request). -/
inductive Event where
  | submit (f : Nat) (args : Option (List Nat)) (size : Nat)
  | dequeue
  | join
deriving DecidableEq

/-- One pool-level transition; `dequeue` is only enabled when the queue is
non-empty. -/
def step (s : PoolState) (e : Event) : Option PoolState :=
  match e with
  | .submit f a n => some (thread_pool_add_task s f a n)
  | .dequeue => worker_dequeue s
  | .join => some (joinAllState s)

/-- Total version of `step`: a disabled event leaves the state unchanged
(the worker keeps waiting). -/
def stepTotal (s : PoolState) (e : Event) : PoolState :=
  (step s e).getD s

/-- Run a sequence of pool-level events. -/
def runEvents (s : PoolState) (es : List Event) : PoolState :=
  es.foldl stepTotal s

/-- The pool states the program can reach: a freshly created pool followed
by any sequence of enabled events. -/
inductive Reachable : PoolState → Prop
  | init (n : Nat) : Reachable (create_thread_pool n)
  | next {s : PoolState} {e : Event} {s' : PoolState} :
      Reachable s → step s e = some s' → Reachable s'

/-! ### Instruction-level model of `thread_pool_work_loop`

The loop body of one worker (lines 77-107 of the C file) is modelled as a
small program-counter machine.  The worker keeps a local view `obs` of the
two shared fields it inspects (`taskQueueHead == NULL` and `running`); the
view is refreshed from the environment exactly when the worker does not
hold the critical section (other threads mutate these fields only inside
the critical section) and during the condition-variable wait, which
releases the critical section internally.  Every read or write of the
shared fields is recorded together with whether the worker held the
critical section at that moment. -/

/-- A worker's view of the shared fields: whether `taskQueueHead` is NULL
and the value of `running`. -/
structure SharedObs where
  headIsNil : Bool
  running : Bool
deriving DecidableEq, Repr

/-- The program points of one iteration of `thread_pool_work_loop`:
`EnterCriticalSection`; the `while` guard; the
`SleepConditionVariableCS` call; the post-wait `if` guard; the head pop;
the `LeaveCriticalSection` before execution; the callable invocation and
frees; and the `return 0` exit. -/
inductive WPc where
  | lockReq
  | whileCheck
  | sleeping
  | afterWhile
  | popHead
  | unlock
  | runTask
  | exited
deriving DecidableEq, Repr

/-- Local state of one worker thread. -/
structure WState where
  pc : WPc
  lockHeld : Bool
  obs : SharedObs
deriving DecidableEq, Repr

/-- Which shared field an instruction touches. -/
inductive MemOp where
  | readHead
  | readRunning
  | writeHead
deriving DecidableEq, Repr

/-- A recorded access to a shared field: the operation, and whether the
worker held the critical section while performing it. -/
structure Access where
  op : MemOp
  locked : Bool
deriving DecidableEq, Repr

/-- One instruction of the worker loop.  `incoming` is the state of shared
memory supplied by the environment, visible only when the worker does not
hold the lock (or while it is blocked in the wait, which releases the
lock); `waitOk` is the result of `SleepConditionVariableCS` when the
instruction is the wait.  On a failed wait the C code prints the error and
calls `LeaveCriticalSection`, then falls back to the `while` guard; per
the documented semantics the wait reacquires the critical section before
returning, so after the explicit release the worker continues WITHOUT the
lock. -/
def wstep (w : WState) (incoming : SharedObs) (waitOk : Bool) : WState × List Access :=
  let obs := if w.lockHeld then w.obs else incoming
  match w.pc with
  | .lockReq => ({ pc := .whileCheck, lockHeld := true, obs := obs }, [])
  | .whileCheck =>
      let acc := { op := MemOp.readHead, locked := w.lockHeld } ::
        (if obs.headIsNil then [{ op := MemOp.readRunning, locked := w.lockHeld }] else [])
      if obs.headIsNil && obs.running then
        ({ pc := .sleeping, lockHeld := w.lockHeld, obs := obs }, acc)
      else
        ({ pc := .afterWhile, lockHeld := w.lockHeld, obs := obs }, acc)
  | .sleeping =>
      if waitOk then ({ pc := .whileCheck, lockHeld := true, obs := incoming }, [])
      else ({ pc := .whileCheck, lockHeld := false, obs := incoming }, [])
  | .afterWhile =>
      let acc := { op := MemOp.readHead, locked := w.lockHeld } ::
        (if obs.headIsNil then [{ op := MemOp.readRunning, locked := w.lockHeld }] else [])
      if obs.headIsNil && !obs.running then
        ({ pc := .exited, lockHeld := false, obs := obs }, acc)
      else
        ({ pc := .popHead, lockHeld := w.lockHeld, obs := obs }, acc)
  | .popHead =>
      ({ pc := .unlock, lockHeld := w.lockHeld, obs := obs },
       [{ op := MemOp.readHead, locked := w.lockHeld },
        { op := MemOp.writeHead, locked := w.lockHeld }])
  | .unlock => ({ pc := .runTask, lockHeld := false, obs := obs }, [])
  | .runTask => ({ pc := .lockReq, lockHeld := false, obs := obs }, [])
  | .exited => (w, [])

/-- Run the worker machine on a list of environment inputs, collecting all
recorded accesses. -/
def wrun (w : WState) : List (SharedObs × Bool) → WState × List Access
  | [] => (w, [])
  | (o, b) :: rest =>
      let r := wstep w o b
      let r' := wrun r.1 rest
      (r'.1, r.2 ++ r'.2)

/-- A worker thread as it starts: about to enter the critical section,
not holding it. -/
def winit : WState :=
  { pc := .lockReq, lockHeld := false, obs := { headIsNil := true, running := true } }

/-! ### The reachability invariant of the pool state

The node heap, listed in allocation order, is exactly the linked chain
hanging off `taskQueueHead`: the head points at the first element, each
record's `next` points at the following element, and the last record's
`next` is NULL. -/

/-- The node heap `l` forms the queue chain starting at pointer `h`. -/
def chainOk : List (Nat × Node) → Option Nat → Prop
  | [], h => h = none
  | (a, nd) :: rest, h => h = some a ∧ chainOk rest nd.next

theorem chainOk_nil_of_none : ∀ {l : List (Nat × Node)}, chainOk l none → l = [] := by
  intro l h
  match l, h with
  | [], _ => rfl
  | (a, nd) :: rest, h => exact absurd h.1 (by simp)

theorem heapFind_cons_self {α : Type} (a : Nat) (v : α) (l : List (Nat × α)) :
    heapFind ((a, v) :: l) a = some v := by
  simp [heapFind]

theorem heapErase_cons_self {α : Type} (a : Nat) (v : α) (l : List (Nat × α))
    (h : a ∉ l.map Prod.fst) : heapErase ((a, v) :: l) a = l := by
  unfold heapErase
  rw [List.filter_cons]
  simp only [beq_self_eq_true, Bool.not_true, Bool.false_eq_true, if_false, ite_false]
  apply List.filter_eq_self.mpr
  intro p hp
  have : p.1 ≠ a := by
    intro hpa
    exact h (by simpa [hpa] using List.mem_map_of_mem Prod.fst hp)
  simp [this]

theorem heapFind_append_fresh {α : Type} (a : Nat) (v : α) (l : List (Nat × α))
    (h : a ∉ l.map Prod.fst) : heapFind (l ++ [(a, v)]) a = some v := by
  induction l with
  | nil => exact heapFind_cons_self a v []
  | cons p rest ih =>
      have hpa : p.1 ≠ a := by
        intro hpa
        exact h (by simp [hpa.symm])
      have hrest : a ∉ rest.map Prod.fst := fun hm => h (List.mem_cons_of_mem _ hm)
      unfold heapFind at ih ⊢
      rw [List.cons_append, List.find?_cons_of_neg _ (by simp [hpa])]
      exact ih hrest

theorem setNext_map_fst (l : List (Nat × Node)) (t : Nat) (nx : Option Nat) :
    (setNext l t nx).map Prod.fst = l.map Prod.fst := by
  induction l with
  | nil => rfl
  | cons p rest ih =>
      by_cases h : p.1 = t <;> simp [setNext, h] at ih ⊢ <;> exact ih

theorem setNext_filterMap_args (l : List (Nat × Node)) (t : Nat) (nx : Option Nat) :
    (setNext l t nx).filterMap (fun p => p.2.taskArgs)
      = l.filterMap (fun p => p.2.taskArgs) := by
  induction l with
  | nil => rfl
  | cons p rest ih =>
      by_cases h : p.1 = t <;>
        simp [setNext, h, List.filterMap_cons] at ih ⊢ <;>
        rw [ih]

/-- Appending a fresh record after rewiring the old tail's `next` pointer
extends a well-formed chain by one element. -/
theorem chainOk_extend (a : Nat) (temp : Node) (htemp : temp.next = none) :
    ∀ (l : List (Nat × Node)) (h : Option Nat) (t : Nat),
      chainOk l h → (l.map Prod.fst).getLast? = some t →
      List.Pairwise (· < ·) (l.map Prod.fst) →
      chainOk (setNext l t (some a) ++ [(a, temp)]) h := by
  intro l
  induction l with
  | nil => intro h t _ hlast _; simp at hlast
  | cons p rest ih =>
      intro h t hchain hlast hpair
      obtain ⟨b, nd⟩ := p
      obtain ⟨hh, hrest⟩ := hchain
      cases rest with
      | nil =>
          have hb : t = b := by simpa using hlast.symm
          subst hb
          have hset : setNext [(t, nd)] t (some a) = [(t, { nd with next := some a })] := by
            simp [setNext]
          rw [hset]
          exact ⟨hh, rfl, htemp⟩
      | cons q qs =>
          have hlast' : ((q :: qs).map Prod.fst).getLast? = some t := by
            simpa [List.getLast?_cons_cons] using hlast
          have htmem : t ∈ (q :: qs).map Prod.fst :=
            List.mem_of_getLast?_eq_some hlast'
          have hbt : b ≠ t := by
            have hblt : b < t := (List.pairwise_cons.mp hpair).1 t htmem
            exact Nat.ne_of_lt hblt
          have step : setNext ((b, nd) :: q :: qs) t (some a)
              = (b, nd) :: setNext (q :: qs) t (some a) := by
            simp [setNext, hbt]
          rw [step]
          refine ⟨hh, ?_⟩
          exact ih nd.next t hrest hlast' (List.pairwise_cons.mp hpair).2

/-- The reachability invariant of the pool: the node heap in allocation
order is exactly the queue chain; when the queue is non-empty
`taskQueueTail` points at the last record (when it is empty the C code
leaves `taskQueueTail` stale); all allocated addresses are below the
allocator counter and strictly increasing; the ghost history satisfies
`dequeued ++ pending = submitted`; and the buffer heap holds exactly the
argument buffers of the pending records, in order. -/
structure PoolInv (s : PoolState) : Prop where
  chain : chainOk s.nodes s.taskQueueHead
  tailOk : s.nodes ≠ [] → s.taskQueueTail = (s.nodes.map Prod.fst).getLast?
  nodesLt : ∀ x ∈ s.nodes.map Prod.fst, x < s.nextAddr
  bufsLt : ∀ x ∈ s.bufs.map Prod.fst, x < s.nextAddr
  subLt : ∀ x ∈ s.submitted, x < s.nextAddr
  nodesSorted : List.Pairwise (· < ·) (s.nodes.map Prod.fst)
  bufsSorted : List.Pairwise (· < ·) (s.bufs.map Prod.fst)
  subSorted : List.Pairwise (· < ·) s.submitted
  ghost : s.dequeued ++ s.nodes.map Prod.fst = s.submitted
  bufsMatch : s.bufs.map Prod.fst = s.nodes.filterMap (fun p => p.2.taskArgs)

theorem inv_create (n : Nat) : PoolInv (create_thread_pool n) := by
  constructor <;> simp [create_thread_pool, chainOk]

theorem enqueueNode_empty (s : PoolState) (a : Nat) (temp : Node)
    (h : s.taskQueueHead = none) :
    enqueueNode s a temp
      = { s with nodes := s.nodes ++ [(a, temp)],
                 taskQueueHead := some a, taskQueueTail := some a,
                 submitted := s.submitted ++ [a] } := by
  simp [enqueueNode, h]

theorem enqueueNode_tail (s : PoolState) (a : Nat) (temp : Node) (h₀ t : Nat)
    (hh : s.taskQueueHead = some h₀) (ht : s.taskQueueTail = some t) :
    enqueueNode s a temp
      = { s with nodes := setNext s.nodes t (some a) ++ [(a, temp)],
                 taskQueueTail := some a,
                 submitted := s.submitted ++ [a] } := by
  simp [enqueueNode, hh, ht]

theorem filterMap_args_singleton (a : Nat) (temp : Node) :
    List.filterMap (fun p => p.2.taskArgs) [(a, temp)] = temp.taskArgs.toList := by
  cases h : temp.taskArgs <;> simp [List.filterMap_cons, h]

/-- The enqueue critical section preserves the invariant.  `B` is the
state after the record and buffer allocations of `thread_pool_add_task`
(which touch only `bufs` and `nextAddr`), `a` the address of the new
record and `temp` its contents. -/
theorem inv_enqueue_core (s B : PoolState) (hinv : PoolInv s) (a : Nat) (temp : Node)
    (hBn : B.nodes = s.nodes) (hBh : B.taskQueueHead = s.taskQueueHead)
    (hBt : B.taskQueueTail = s.taskQueueTail) (hBs : B.submitted = s.submitted)
    (hBd : B.dequeued = s.dequeued)
    (ha : a = s.nextAddr)
    (htemp : temp.next = none)
    (hbm : B.bufs.map Prod.fst
      = s.nodes.filterMap (fun p => p.2.taskArgs) ++ temp.taskArgs.toList)
    (hbufLt : ∀ x ∈ B.bufs.map Prod.fst, x < B.nextAddr)
    (hbufSorted : List.Pairwise (· < ·) (B.bufs.map Prod.fst))
    (haLt : a < B.nextAddr)
    (hnextGe : s.nextAddr ≤ B.nextAddr) :
    PoolInv (enqueueNode B a temp) := by
  cases hh : s.taskQueueHead with
  | none =>
      have hnil : s.nodes = [] := chainOk_nil_of_none (hh ▸ hinv.chain)
      rw [enqueueNode_empty B a temp (hBh.trans hh)]
      have hdeq : s.dequeued = s.submitted := by
        have := hinv.ghost
        simpa [hnil] using this
      constructor
      · show chainOk (B.nodes ++ [(a, temp)]) (some a)
        rw [hBn, hnil]
        exact ⟨rfl, htemp⟩
      · intro _
        show some a = ((B.nodes ++ [(a, temp)]).map Prod.fst).getLast?
        rw [hBn, hnil]
        simp
      · intro x hx
        rw [hBn, hnil] at hx
        simp at hx
        simpa [hx] using haLt
      · exact hbufLt
      · intro x hx
        simp only [hBs] at hx
        rcases List.mem_append.mp hx with hx | hx
        · exact lt_of_lt_of_le (hinv.subLt x hx) hnextGe
        · simp at hx; simpa [hx] using haLt
      · rw [hBn, hnil]; simp
      · exact hbufSorted
      · show List.Pairwise (· < ·) (B.submitted ++ [a])
        rw [hBs]
        refine List.pairwise_append.mpr ⟨hinv.subSorted, by simp, ?_⟩
        intro x hx y hy
        simp at hy
        subst hy
        exact ha ▸ hinv.subLt x hx
      · show B.dequeued ++ ((B.nodes ++ [(a, temp)]).map Prod.fst) = B.submitted ++ [a]
        rw [hBn, hnil, hBd, hBs, hdeq]
        simp
      · show B.bufs.map Prod.fst = (B.nodes ++ [(a, temp)]).filterMap (fun p => p.2.taskArgs)
        rw [hBn, hnil, hbm, hnil]
        simp [filterMap_args_singleton]
  | some h₀ =>
      have hne : s.nodes ≠ [] := by
        intro hcon
        have := hinv.chain
        rw [hcon] at this
        exact absurd (hh ▸ this) (by simp [chainOk])
      have htail := hinv.tailOk hne
      cases hgl : (s.nodes.map Prod.fst).getLast? with
      | none =>
          exact absurd (List.getLast?_eq_none_iff.mp hgl)
            (by simpa using hne)
      | some t =>
          rw [enqueueNode_tail B a temp h₀ t (hBh.trans hh)
            (by rw [hBt, htail, hgl])]
          have hmapfst : (setNext B.nodes t (some a) ++ [(a, temp)]).map Prod.fst
              = s.nodes.map Prod.fst ++ [a] := by
            rw [List.map_append, setNext_map_fst, hBn]
            rfl
          constructor
          · show chainOk (setNext B.nodes t (some a) ++ [(a, temp)]) B.taskQueueHead
            rw [hBn, hBh, hh]
            exact hh ▸ chainOk_extend a temp htemp s.nodes s.taskQueueHead t
              (hinv.chain) hgl hinv.nodesSorted
          · intro _
            show some a = ((setNext B.nodes t (some a) ++ [(a, temp)]).map Prod.fst).getLast?
            rw [hmapfst, List.getLast?_concat]
          · intro x hx
            rw [hmapfst] at hx
            rcases List.mem_append.mp hx with hx | hx
            · exact lt_of_lt_of_le (hinv.nodesLt x hx) hnextGe
            · simp at hx; simpa [hx] using haLt
          · exact hbufLt
          · intro x hx
            simp only [hBs] at hx
            rcases List.mem_append.mp hx with hx | hx
            · exact lt_of_lt_of_le (hinv.subLt x hx) hnextGe
            · simp at hx; simpa [hx] using haLt
          · show List.Pairwise (· < ·) ((setNext B.nodes t (some a) ++ [(a, temp)]).map Prod.fst)
            rw [hmapfst]
            refine List.pairwise_append.mpr ⟨hinv.nodesSorted, by simp, ?_⟩
            intro x hx y hy
            simp at hy
            subst hy
            exact ha ▸ hinv.nodesLt x hx
          · exact hbufSorted
          · show List.Pairwise (· < ·) (B.submitted ++ [a])
            rw [hBs]
            refine List.pairwise_append.mpr ⟨hinv.subSorted, by simp, ?_⟩
            intro x hx y hy
            simp at hy
            subst hy
            exact ha ▸ hinv.subLt x hx
          · show B.dequeued ++ ((setNext B.nodes t (some a) ++ [(a, temp)]).map Prod.fst)
              = B.submitted ++ [a]
            rw [hmapfst, hBd, hBs, ← List.append_assoc, hinv.ghost]
          · show B.bufs.map Prod.fst
              = (setNext B.nodes t (some a) ++ [(a, temp)]).filterMap (fun p => p.2.taskArgs)
            rw [List.filterMap_append, setNext_filterMap_args, hBn, hbm,
              filterMap_args_singleton]

theorem inv_add_task (s : PoolState) (hinv : PoolInv s) (f : Nat)
    (args : Option (List Nat)) (n : Nat) :
    PoolInv (thread_pool_add_task s f args n) := by
  cases args with
  | some bytes =>
      show PoolInv (enqueueNode
        { s with bufs := s.bufs ++ [(s.nextAddr + 1, bytes.take n)],
                 nextAddr := s.nextAddr + 2 }
        s.nextAddr { task := f, taskArgs := some (s.nextAddr + 1), next := none })
      apply inv_enqueue_core s
        { s with bufs := s.bufs ++ [(s.nextAddr + 1, bytes.take n)],
                 nextAddr := s.nextAddr + 2 }
        hinv s.nextAddr
        { task := f, taskArgs := some (s.nextAddr + 1), next := none }
        rfl rfl rfl rfl rfl rfl rfl
      · show (s.bufs ++ [(s.nextAddr + 1, bytes.take n)]).map Prod.fst
          = s.nodes.filterMap (fun p => p.2.taskArgs) ++ (some (s.nextAddr + 1)).toList
        rw [List.map_append, hinv.bufsMatch]
        rfl
      · intro x hx
        show x < s.nextAddr + 2
        have hx' : x ∈ (s.bufs ++ [(s.nextAddr + 1, bytes.take n)]).map Prod.fst := hx
        rw [List.map_append] at hx'
        rcases List.mem_append.mp hx' with hx' | hx'
        · have := hinv.bufsLt x hx'
          omega
        · simp at hx'
          omega
      · show List.Pairwise (· < ·) ((s.bufs ++ [(s.nextAddr + 1, bytes.take n)]).map Prod.fst)
        rw [List.map_append]
        refine List.pairwise_append.mpr ⟨hinv.bufsSorted, by simp, ?_⟩
        intro x hx y hy
        simp at hy
        subst hy
        have := hinv.bufsLt x hx
        omega
      · show s.nextAddr < s.nextAddr + 2
        omega
      · show s.nextAddr ≤ s.nextAddr + 2
        omega
  | none =>
      show PoolInv (enqueueNode { s with nextAddr := s.nextAddr + 1 }
        s.nextAddr { task := f, taskArgs := none, next := none })
      apply inv_enqueue_core s { s with nextAddr := s.nextAddr + 1 }
        hinv s.nextAddr { task := f, taskArgs := none, next := none }
        rfl rfl rfl rfl rfl rfl rfl
      · show s.bufs.map Prod.fst
          = s.nodes.filterMap (fun p => p.2.taskArgs) ++ (none : Option Nat).toList
        rw [hinv.bufsMatch]
        simp
      · intro x hx
        show x < s.nextAddr + 1
        have := hinv.bufsLt x hx
        omega
      · exact hinv.bufsSorted
      · show s.nextAddr < s.nextAddr + 1
        omega
      · show s.nextAddr ≤ s.nextAddr + 1
        omega

/-- Popping from a state whose node heap is the chain `(a, nd) :: rest`
removes exactly the head record and its argument buffer. -/
theorem popRecord_cons (s : PoolState) (a : Nat) (nd : Node) (rest : List (Nat × Node))
    (hn : s.nodes = (a, nd) :: rest)
    (hh : s.taskQueueHead = some a)
    (hsorted : List.Pairwise (· < ·) (s.nodes.map Prod.fst))
    (hbm : s.bufs.map Prod.fst = s.nodes.filterMap (fun p => p.2.taskArgs))
    (hbs : List.Pairwise (· < ·) (s.bufs.map Prod.fst)) :
    ∃ bufs', popRecord s = some (a, nd,
        { s with taskQueueHead := nd.next, nodes := rest, bufs := bufs' })
      ∧ bufs'.map Prod.fst = rest.filterMap (fun p => p.2.taskArgs)
      ∧ List.Sublist bufs' s.bufs := by
  have hmem : a ∉ rest.map Prod.fst := by
    rw [hn] at hsorted
    simp only [List.map_cons] at hsorted
    intro hcon
    exact absurd rfl (Nat.ne_of_lt ((List.pairwise_cons.mp hsorted).1 a hcon))
  have herase : heapErase s.nodes a = rest := by
    rw [hn]
    exact heapErase_cons_self a nd rest hmem
  have hfind : heapFind s.nodes a = some nd := by
    rw [hn]
    exact heapFind_cons_self a nd rest
  cases hta : nd.taskArgs with
  | none =>
      refine ⟨s.bufs, ?_, ?_, List.Sublist.refl s.bufs⟩
      · simp [popRecord, hh, hfind, hta, herase]
      · rw [hbm, hn]
        simp [List.filterMap_cons, hta]
  | some b =>
      have hbmc : s.bufs.map Prod.fst = b :: rest.filterMap (fun p => p.2.taskArgs) := by
        rw [hbm, hn]
        simp [List.filterMap_cons, hta]
      cases hbufs : s.bufs with
      | nil => rw [hbufs] at hbmc; exact absurd hbmc (by simp)
      | cons p brest =>
          have hq : p.1 = b := by
            rw [hbufs] at hbmc
            simp only [List.map_cons, List.cons.injEq] at hbmc
            exact hbmc.1
          have hbrest : brest.map Prod.fst = rest.filterMap (fun p => p.2.taskArgs) := by
            rw [hbufs] at hbmc
            simp only [List.map_cons, List.cons.injEq] at hbmc
            exact hbmc.2
          have hbmem : b ∉ brest.map Prod.fst := by
            rw [hbufs] at hbs
            simp only [List.map_cons, hq] at hbs
            intro hcon
            exact absurd rfl (Nat.ne_of_lt ((List.pairwise_cons.mp hbs).1 b hcon))
          have heraseb : heapErase s.bufs b = brest := by
            rw [hbufs, show p = (b, p.2) from by rw [← hq]]
            exact heapErase_cons_self b p.2 brest hbmem
          refine ⟨brest, ?_, hbrest, ?_⟩
          · simp [popRecord, hh, hfind, hta, herase, heraseb]
          · exact List.sublist_cons_self p brest

theorem inv_dequeue (s s' : PoolState) (hinv : PoolInv s)
    (h : worker_dequeue s = some s') : PoolInv s' := by
  cases hh : s.taskQueueHead with
  | none =>
      have : worker_dequeue s = none := by
        simp [worker_dequeue, popRecord, hh]
      rw [this] at h
      exact absurd h (by simp)
  | some a =>
      cases hn : s.nodes with
      | nil =>
          have := hinv.chain
          rw [hn, hh] at this
          exact absurd this (by simp [chainOk])
      | cons p rest =>
          obtain ⟨b, nd⟩ := p
          have hchain := hinv.chain
          rw [hn, hh] at hchain
          obtain ⟨hab, hrest⟩ := hchain
          have hba : b = a := by simpa using hab.symm
          subst hba
          obtain ⟨bufs', hpop, hbmap, hbsub⟩ :=
            popRecord_cons s b nd rest hn hh hinv.nodesSorted hinv.bufsMatch hinv.bufsSorted
          have hw : worker_dequeue s
              = some { s with taskQueueHead := nd.next,
                              nodes := rest,
                              bufs := bufs',
                              dequeued := s.dequeued ++ [b],
                              executed := s.executed ++ [nd.task] } := by
            unfold worker_dequeue
            rw [hpop]
          rw [hw] at h
          have hs' := (Option.some.inj h).symm
          subst hs'
          have hmapcons : s.nodes.map Prod.fst = b :: rest.map Prod.fst := by
            rw [hn]; rfl
          constructor
          · exact hrest
          · intro hne
            show s.taskQueueTail = (rest.map Prod.fst).getLast?
            cases rest with
            | nil => exact absurd rfl hne
            | cons r rs =>
                have := hinv.tailOk (by rw [hn]; simp)
                rw [hmapcons] at this
                rw [this]
                exact List.getLast?_cons_cons
          · intro x hx
            refine hinv.nodesLt x ?_
            rw [hmapcons]
            exact List.mem_cons_of_mem _ hx
          · intro x hx
            exact hinv.bufsLt x ((hbsub.map Prod.fst).subset hx)
          · exact hinv.subLt
          · have := hinv.nodesSorted
            rw [hmapcons] at this
            exact (List.pairwise_cons.mp this).2
          · exact hinv.bufsSorted.sublist (hbsub.map Prod.fst)
          · exact hinv.subSorted
          · show (s.dequeued ++ [b]) ++ rest.map Prod.fst = s.submitted
            rw [List.append_assoc, List.singleton_append, ← hmapcons, hinv.ghost]
          · exact hbmap

theorem inv_join (s : PoolState) (hinv : PoolInv s) : PoolInv (joinAllState s) := by
  unfold joinAllState
  by_cases h : s.running
  · rw [if_pos h]
    exact ⟨hinv.chain, hinv.tailOk, hinv.nodesLt, hinv.bufsLt, hinv.subLt,
      hinv.nodesSorted, hinv.bufsSorted, hinv.subSorted, hinv.ghost, hinv.bufsMatch⟩
  · rw [if_neg h]
    exact hinv

/-- Every state the pool can reach satisfies the invariant. -/
theorem reachable_inv (s : PoolState) (h : Reachable s) : PoolInv s := by
  induction h with
  | init n => exact inv_create n
  | next hr hstep ih =>
      rename_i s₀ e s₁
      cases e with
      | submit f a n =>
          have : s₁ = thread_pool_add_task s₀ f a n := by
            exact (Option.some.inj hstep).symm
          rw [this]
          exact inv_add_task s₀ ih f a n
      | dequeue =>
          exact inv_dequeue s₀ s₁ ih hstep
      | join =>
          have : s₁ = joinAllState s₀ := by
            exact (Option.some.inj hstep).symm
          rw [this]
          exact inv_join s₀ ih

/-- Given the queue-shape invariant, the drain loop of
`thread_pool_destroy` with fuel at least the number of live records frees
every record and buffer, empties the head pointer, and touches nothing
else. -/
theorem drainLoop_spec : ∀ (k : Nat) (s : PoolState),
    chainOk s.nodes s.taskQueueHead →
    List.Pairwise (· < ·) (s.nodes.map Prod.fst) →
    s.bufs.map Prod.fst = s.nodes.filterMap (fun p => p.2.taskArgs) →
    List.Pairwise (· < ·) (s.bufs.map Prod.fst) →
    s.nodes.length ≤ k →
    (drainLoop k s).taskQueueHead = none ∧ (drainLoop k s).nodes = []
      ∧ (drainLoop k s).bufs = []
      ∧ (drainLoop k s).running = s.running
      ∧ (drainLoop k s).executed = s.executed
      ∧ (drainLoop k s).dequeued = s.dequeued
      ∧ (drainLoop k s).threads = s.threads := by
  intro k
  induction k with
  | zero =>
      intro s hc hns hbm hbs hlen
      have hnil : s.nodes = [] := List.length_eq_zero.mp (Nat.le_zero.mp hlen)
      have hh : s.taskQueueHead = none := by rw [hnil] at hc; exact hc
      have hbnil : s.bufs = [] := by
        have hm : s.bufs.map Prod.fst = [] := by
          rw [hbm, hnil]
          rfl
        exact List.map_eq_nil_iff.mp hm
      exact ⟨hh, hnil, hbnil, rfl, rfl, rfl, rfl⟩
  | succ k ih =>
      intro s hc hns hbm hbs hlen
      cases hn : s.nodes with
      | nil =>
          have hh : s.taskQueueHead = none := by rw [hn] at hc; exact hc
          have hbnil : s.bufs = [] := by
            have hm : s.bufs.map Prod.fst = [] := by
              rw [hbm, hn]
              rfl
            exact List.map_eq_nil_iff.mp hm
          have heq : drainLoop (k + 1) s = s := by
            unfold drainLoop popRecord
            rw [hh]
          rw [heq]
          exact ⟨hh, hn, hbnil, rfl, rfl, rfl, rfl⟩
      | cons p rest =>
          obtain ⟨a, nd⟩ := p
          have hc' := hc
          rw [hn] at hc'
          obtain ⟨hha, hrest⟩ := hc'
          obtain ⟨bufs', hpop, hbmap, hbsub⟩ :=
            popRecord_cons s a nd rest hn hha hns hbm hbs
          have hstep : drainLoop (k + 1) s
              = drainLoop k { s with taskQueueHead := nd.next, nodes := rest, bufs := bufs' } := by
            simp only [drainLoop, hpop]
          rw [hstep]
          have hlen' : rest.length ≤ k := by
            have : s.nodes.length = rest.length + 1 := by rw [hn]; rfl
            omega
          have hns' : List.Pairwise (· < ·) (rest.map Prod.fst) := by
            have := hns
            rw [hn] at this
            exact (List.pairwise_cons.mp this).2
          exact ih { s with taskQueueHead := nd.next, nodes := rest, bufs := bufs' }
            hrest hns' hbmap (hbs.sublist (hbsub.map Prod.fst)) hlen'

theorem enqueueNode_running (s : PoolState) (a : Nat) (temp : Node) :
    (enqueueNode s a temp).running = s.running := by
  unfold enqueueNode
  cases s.taskQueueHead with
  | none => rfl
  | some h₀ =>
      cases s.taskQueueTail with
      | some t => rfl
      | none => rfl

theorem add_task_running (s : PoolState) (f : Nat) (args : Option (List Nat)) (n : Nat) :
    (thread_pool_add_task s f args n).running = s.running := by
  cases args with
  | some bytes =>
      show (enqueueNode
        { s with bufs := s.bufs ++ [(s.nextAddr + 1, bytes.take n)],
                 nextAddr := s.nextAddr + 2 }
        s.nextAddr { task := f, taskArgs := some (s.nextAddr + 1), next := none }).running
        = s.running
      rw [enqueueNode_running]
  | none =>
      show (enqueueNode { s with nextAddr := s.nextAddr + 1 }
        s.nextAddr { task := f, taskArgs := none, next := none }).running = s.running
      rw [enqueueNode_running]

theorem worker_dequeue_running (s s' : PoolState) (h : worker_dequeue s = some s') :
    s'.running = s.running := by
  unfold worker_dequeue popRecord at h
  cases hh : s.taskQueueHead with
  | none => simp [hh] at h
  | some a =>
      simp only [hh] at h
      cases hf : heapFind s.nodes a with
      | none => simp [hf] at h
      | some nd =>
          simp only [hf] at h
          rw [← Option.some.inj h]
  
theorem joinAllState_running (s : PoolState) : (joinAllState s).running = false := by
  unfold joinAllState
  by_cases h : s.running <;> simp [h]

theorem stepTotal_running (s : PoolState) (e : Event) (h : s.running = false) :
    (stepTotal s e).running = false := by
  cases e with
  | submit f a n =>
      show (thread_pool_add_task s f a n).running = false
      rw [add_task_running]
      exact h
  | dequeue =>
      unfold stepTotal step
      cases hd : worker_dequeue s with
      | none => simpa [hd] using h
      | some s' =>
          simp only [hd, Option.getD_some]
          rw [worker_dequeue_running s s' hd]
          exact h
  | join =>
      show (joinAllState s).running = false
      exact joinAllState_running s

theorem runEvents_running (es : List Event) : ∀ (s : PoolState), s.running = false →
    (runEvents s es).running = false := by
  induction es with
  | nil => intro s h; exact h
  | cons e rest ih =>
      intro s h
      show (runEvents (stepTotal s e) rest).running = false
      exact ih (stepTotal s e) (stepTotal_running s e h)

/-- After the enqueue critical section both `taskQueueHead` and
`taskQueueTail` are non-NULL (in any reachable pre-state). -/
theorem enqueueNode_head_tail (s B : PoolState) (hinv : PoolInv s)
    (hBn : B.nodes = s.nodes) (hBh : B.taskQueueHead = s.taskQueueHead)
    (hBt : B.taskQueueTail = s.taskQueueTail) (a : Nat) (temp : Node) :
    (enqueueNode B a temp).taskQueueHead ≠ none
      ∧ (enqueueNode B a temp).taskQueueTail ≠ none := by
  cases hh : s.taskQueueHead with
  | none =>
      rw [enqueueNode_empty B a temp (hBh.trans hh)]
      exact ⟨by simp, by simp⟩
  | some h₀ =>
      have hne : s.nodes ≠ [] := by
        intro hcon
        have := hinv.chain
        rw [hcon, hh] at this
        exact absurd this (by simp [chainOk])
      have htail := hinv.tailOk hne
      cases hgl : (s.nodes.map Prod.fst).getLast? with
      | none =>
          exact absurd (List.getLast?_eq_none_iff.mp hgl) (by simpa using hne)
      | some t =>
          rw [enqueueNode_tail B a temp h₀ t (hBh.trans hh) (by rw [hBt, htail, hgl])]
          refine ⟨?_, by simp⟩
          show B.taskQueueHead ≠ none
          rw [hBh, hh]
          simp

/-- The freshly enqueued record is stored at the address handed out by the
allocator, with exactly the contents the submit built. -/
theorem enqueueNode_find (s B : PoolState) (hinv : PoolInv s)
    (hBn : B.nodes = s.nodes) (hBh : B.taskQueueHead = s.taskQueueHead)
    (hBt : B.taskQueueTail = s.taskQueueTail) (temp : Node) :
    heapFind (enqueueNode B s.nextAddr temp).nodes s.nextAddr = some temp := by
  have hfresh : s.nextAddr ∉ s.nodes.map Prod.fst := by
    intro hm
    exact absurd (hinv.nodesLt _ hm) (lt_irrefl _)
  cases hh : s.taskQueueHead with
  | none =>
      rw [enqueueNode_empty B _ temp (hBh.trans hh)]
      show heapFind (B.nodes ++ [(s.nextAddr, temp)]) s.nextAddr = some temp
      rw [hBn]
      exact heapFind_append_fresh _ _ _ hfresh
  | some h₀ =>
      have hne : s.nodes ≠ [] := by
        intro hcon
        have := hinv.chain
        rw [hcon, hh] at this
        exact absurd this (by simp [chainOk])
      have htail := hinv.tailOk hne
      cases hgl : (s.nodes.map Prod.fst).getLast? with
      | none =>
          exact absurd (List.getLast?_eq_none_iff.mp hgl) (by simpa using hne)
      | some t =>
          rw [enqueueNode_tail B _ temp h₀ t (hBh.trans hh) (by rw [hBt, htail, hgl])]
          show heapFind (setNext B.nodes t (some s.nextAddr)
            ++ [(s.nextAddr, temp)]) s.nextAddr = some temp
          apply heapFind_append_fresh
          rw [setNext_map_fst, hBn]
          exact hfresh

theorem enqueueNode_bufs (s : PoolState) (a : Nat) (temp : Node) :
    (enqueueNode s a temp).bufs = s.bufs := by
  unfold enqueueNode
  cases s.taskQueueHead with
  | none => rfl
  | some h₀ =>
      cases s.taskQueueTail with
      | some t => rfl
      | none => rfl

theorem joinAllState_preserves (s : PoolState) :
    (joinAllState s).nodes = s.nodes ∧ (joinAllState s).bufs = s.bufs
      ∧ (joinAllState s).taskQueueHead = s.taskQueueHead
      ∧ (joinAllState s).taskQueueTail = s.taskQueueTail
      ∧ (joinAllState s).executed = s.executed
      ∧ (joinAllState s).dequeued = s.dequeued
      ∧ (joinAllState s).submitted = s.submitted
      ∧ (joinAllState s).threads = s.threads
      ∧ (joinAllState s).nextAddr = s.nextAddr := by
  unfold joinAllState
  by_cases h : s.running <;> simp [h]

theorem joinAllState_not_running (s : PoolState) (h : s.running = false) :
    joinAllState s = s := by
  unfold joinAllState
  rw [h]
  simp

theorem spawnThreads_length (ok : Nat → Bool) : ∀ (k i : Nat) (ts : List Nat),
    spawnThreads ok i k = some ts → ts.length = k := by
  intro k
  induction k with
  | zero =>
      intro i ts h
      simp [spawnThreads] at h
      simp [h]
  | succ k ih =>
      intro i ts h
      unfold spawnThreads at h
      by_cases hok : ok i
      · rw [if_pos hok] at h
        cases hs : spawnThreads ok (i + 1) k with
        | none => rw [hs] at h; simp at h
        | some ts' =>
            rw [hs] at h
            simp only [Option.map_some'] at h
            rw [← Option.some.inj h]
            simp [ih (i + 1) ts' hs]
      · rw [if_neg hok] at h
        exact absurd h (by simp)

theorem spawnThreads_fail (ok : Nat → Bool) : ∀ (k i : Nat),
    (∃ j, i ≤ j ∧ j < i + k ∧ ok j = false) → spawnThreads ok i k = none := by
  intro k
  induction k with
  | zero =>
      intro i ⟨j, hij, hjk, _⟩
      omega
  | succ k ih =>
      intro i ⟨j, hij, hjk, hj⟩
      unfold spawnThreads
      by_cases hok : ok i
      · rw [if_pos hok]
        have hji : j ≠ i := by
          intro hcon
          rw [hcon] at hj
          rw [hj] at hok
          exact absurd hok (by simp)
        have : spawnThreads ok (i + 1) k = none := by
          refine ih (i + 1) ⟨j, by omega, by omega, hj⟩
        rw [this]
        rfl
      · rw [if_neg hok]

/-- Lock-discipline bookkeeping for the worker machine: away from the
guard, pop and wait instructions the worker does not rely on the lock; at
those instructions it must hold it. -/
def wgood (w : WState) : Bool :=
  !(w.pc == WPc.whileCheck || w.pc == WPc.afterWhile || w.pc == WPc.popHead
     || w.pc == WPc.sleeping) || w.lockHeld

theorem wstep_allok (w : WState) (o : SharedObs) (hg : wgood w = true) :
    wgood (wstep w o true).1 = true ∧ ∀ acc ∈ (wstep w o true).2, acc.locked = true := by
  obtain ⟨pc, lk, x, y⟩ := w
  obtain ⟨i, j⟩ := o
  revert hg
  cases pc <;> cases lk <;> cases x <;> cases y <;> cases i <;> cases j <;> decide

theorem wrun_allok (inputs : List (SharedObs × Bool)) : ∀ (w : WState), wgood w = true →
    (∀ p ∈ inputs, p.2 = true) →
    ∀ acc ∈ (wrun w inputs).2, acc.locked = true := by
  induction inputs with
  | nil =>
      intro w _ _ acc hacc
      simp [wrun] at hacc
  | cons q rest ih =>
      intro w hw hall acc hacc
      obtain ⟨o, b⟩ := q
      have hb : b = true := hall (o, b) (List.mem_cons_self _ _)
      subst hb
      simp only [wrun] at hacc
      rcases List.mem_append.mp hacc with hacc | hacc
      · exact (wstep_allok w o hw).2 acc hacc
      · exact ih (wstep w o true).1 (wstep_allok w o hw).1
          (fun p hp => hall p (List.mem_cons_of_mem _ hp)) acc hacc

/-! ### The claims -/

/-- C1: in every reachable pool state the dequeue history followed by the
records still queued (in chain order) is exactly the submission history,
the submission history has no duplicates, the dequeue order is a prefix of
the submission order (strict FIFO), and every submitted record is
accounted for exactly once between the dequeue history and the pending
queue — no record is dequeued twice, and none is lost while the pool
keeps running. -/
theorem queue_fifo_exactly_once (s : PoolState) (h : Reachable s) :
    s.dequeued ++ s.nodes.map Prod.fst = s.submitted
      ∧ s.submitted.Nodup
      ∧ (∃ pending, s.dequeued ++ pending = s.submitted)
      ∧ ∀ a ∈ s.submitted,
          s.dequeued.count a + (s.nodes.map Prod.fst).count a = 1 := by
  have hinv := reachable_inv s h
  have hnodup : s.submitted.Nodup :=
    List.Pairwise.imp (fun hlt => Nat.ne_of_lt hlt) hinv.subSorted
  refine ⟨hinv.ghost, hnodup, ⟨s.nodes.map Prod.fst, hinv.ghost⟩, ?_⟩
  intro a ha
  have h1 : s.submitted.count a = 1 := List.count_eq_one_of_mem hnodup ha
  calc s.dequeued.count a + (s.nodes.map Prod.fst).count a
      = (s.dequeued ++ s.nodes.map Prod.fst).count a := (List.count_append a _ _).symm
    _ = s.submitted.count a := by rw [hinv.ghost]
    _ = 1 := h1

/-- A small concrete run: create a 2-worker pool, submit a task with a
two-byte argument, submit a task with a NULL argument, let one worker
dequeue. -/
def exS0 : PoolState := create_thread_pool 2

def exS1 : PoolState := thread_pool_add_task exS0 5 (some [1, 2]) 2

def exS2 : PoolState := thread_pool_add_task exS1 6 none 0

def exS3 : PoolState := (worker_dequeue exS2).getD exS2

theorem exS2_reachable : Reachable exS2 := by
  have h1 : step exS0 (Event.submit 5 (some [1, 2]) 2) = some exS1 := rfl
  have h2 : step exS1 (Event.submit 6 none 0) = some exS2 := rfl
  exact Reachable.next (Reachable.next (Reachable.init 2) h1) h2

theorem exS3_reachable : Reachable exS3 := by
  have h3 : step exS2 Event.dequeue = some exS3 := by decide
  exact Reachable.next exS2_reachable h3

theorem queue_fifo_exactly_once_witness :
    exS3.dequeued ++ exS3.nodes.map Prod.fst = exS3.submitted
      ∧ exS3.submitted.Nodup
      ∧ (∃ pending, exS3.dequeued ++ pending = exS3.submitted)
      ∧ ∀ a ∈ exS3.submitted,
          exS3.dequeued.count a + (exS3.nodes.map Prod.fst).count a = 1 :=
  queue_fifo_exactly_once exS3 exS3_reachable

/-- C2, counterexample: the claimed invariant `head == None ↔ tail == None`
is NOT preserved by the worker dequeue.  Starting from a reachable state
that satisfies the invariant (one queued record, head and tail both set),
the dequeue of lines 94-99 advances `taskQueueHead` to NULL but leaves
`taskQueueTail` pointing at the freed record, so afterwards
`head == None` while `tail ≠ None`. -/
theorem head_tail_invariant_cex :
    (thread_pool_add_task (create_thread_pool 1) 9 none 0).taskQueueHead = some 0
      ∧ (thread_pool_add_task (create_thread_pool 1) 9 none 0).taskQueueTail = some 0
      ∧ (worker_dequeue (thread_pool_add_task (create_thread_pool 1) 9 none 0)).map
          (fun s => (s.taskQueueHead, s.taskQueueTail))
        = some (none, some 0) := by
  refine ⟨rfl, rfl, ?_⟩
  decide

/-- C2, amended: the invariant holds in the created state; the enqueue
critical section re-establishes both pointers (head and tail are non-NULL
after every submit from a reachable state); but after a dequeue or drain
empties the queue only the direction `tail == None → head == None`
survives in reachable states, because the dequeue never clears
`taskQueueTail`. -/
theorem head_tail_invariant_amended (n : Nat) (s : PoolState) (f m : Nat)
    (args : Option (List Nat)) (h : Reachable s) :
    (create_thread_pool n).taskQueueHead = none
      ∧ (create_thread_pool n).taskQueueTail = none
      ∧ (thread_pool_add_task s f args m).taskQueueHead ≠ none
      ∧ (thread_pool_add_task s f args m).taskQueueTail ≠ none
      ∧ (s.taskQueueTail = none → s.taskQueueHead = none) := by
  have hinv := reachable_inv s h
  have henq : (thread_pool_add_task s f args m).taskQueueHead ≠ none
      ∧ (thread_pool_add_task s f args m).taskQueueTail ≠ none := by
    cases args with
    | some bytes =>
        exact enqueueNode_head_tail s
          { s with bufs := s.bufs ++ [(s.nextAddr + 1, bytes.take m)],
                   nextAddr := s.nextAddr + 2 }
          hinv rfl rfl rfl s.nextAddr _
    | none =>
        exact enqueueNode_head_tail s { s with nextAddr := s.nextAddr + 1 }
          hinv rfl rfl rfl s.nextAddr _
  refine ⟨rfl, rfl, henq.1, henq.2, ?_⟩
  intro ht
  cases hh : s.taskQueueHead with
  | none => rfl
  | some a =>
      have hne : s.nodes ≠ [] := by
        intro hcon
        have := hinv.chain
        rw [hcon, hh] at this
        exact absurd this (by simp [chainOk])
      have htail := hinv.tailOk hne
      rw [ht] at htail
      have := List.getLast?_eq_none_iff.mp htail.symm
      exact absurd (List.map_eq_nil_iff.mp this) hne

theorem head_tail_invariant_amended_witness :
    (create_thread_pool 1).taskQueueHead = none
      ∧ (create_thread_pool 1).taskQueueTail = none
      ∧ (thread_pool_add_task exS2 7 none 0).taskQueueHead ≠ none
      ∧ (thread_pool_add_task exS2 7 none 0).taskQueueTail ≠ none
      ∧ (exS2.taskQueueTail = none → exS2.taskQueueHead = none) :=
  head_tail_invariant_amended 1 exS2 7 0 none exS2_reachable

/-- The environment inputs of a run in which the wait primitive fails
once: the queue stays empty and `running` stays true throughout. -/
def waitFailTrace : List (SharedObs × Bool) :=
  [({ headIsNil := true, running := true }, true),
   ({ headIsNil := true, running := true }, true),
   ({ headIsNil := true, running := true }, false),
   ({ headIsNil := true, running := true }, true)]

/-- C3: the claim fails on the code.  After `SleepConditionVariableCS`
reports failure the worker prints the error and calls
`LeaveCriticalSection`, then falls back to the `while` guard: the very
next reads of `taskQueueHead` (and `running`) are performed WITHOUT the
critical section held.  The run below (lock; guard; failed wait; guard
again) records an unlocked read of the head pointer. -/
theorem wait_failure_unlocked_access :
    { op := MemOp.readHead, locked := false } ∈ (wrun winit waitFailTrace).2 := by
  decide

/-- The environment inputs of a run in which a wait failure races with the
other threads: during the failed wait a task is submitted, and after the
worker (now lock-free) passes the `while` guard another worker steals the
task before the `if` guard. -/
def exitRaceTrace : List (SharedObs × Bool) :=
  [({ headIsNil := true, running := true }, true),
   ({ headIsNil := true, running := true }, true),
   ({ headIsNil := false, running := true }, false),
   ({ headIsNil := false, running := true }, true),
   ({ headIsNil := true, running := true }, true)]

/-- C4, counterexample: on the wait-failure path the claim is false — the
worker can proceed past waiting into the head pop while its own (unlocked)
observation of the queue is `head == NULL` and `running` is true, i.e. it
pops from an empty queue instead of exiting or popping a real record (in
the C code this dereferences a NULL `taskQueueHead`). -/
theorem worker_exit_cex :
    (wrun winit exitRaceTrace).1
      = { pc := WPc.popHead, lockHeld := false,
          obs := { headIsNil := true, running := true } } := by
  decide

/-- C4, amended: as long as the decision steps run with the critical
section held — which is the case on every execution in which each
`SleepConditionVariableCS` call succeeds, the fourth conjunct — the worker
loop's state machine satisfies the claim: a step enters `Exited` exactly
from the post-wait guard with the queue observed empty and `running`
false; `Exited` is terminal; and in every other case past the guard the
queue is non-empty and the worker pops the head. -/
theorem worker_exit_amended :
    (∀ (w : WState) (o : SharedObs) (b : Bool), w.lockHeld = true →
      ((wstep w o b).1.pc = WPc.exited
        ↔ (w.pc = WPc.exited
            ∨ (w.pc = WPc.afterWhile ∧ w.obs.headIsNil = true ∧ w.obs.running = false))))
    ∧ (∀ (w : WState) (o : SharedObs) (b : Bool), w.pc = WPc.exited → wstep w o b = (w, []))
    ∧ (∀ (w : WState) (o o' : SharedObs) (b b' : Bool),
        w.lockHeld = true → w.pc = WPc.whileCheck →
        (wstep w o b).1.pc = WPc.afterWhile →
        ((wstep (wstep w o b).1 o' b').1.pc = WPc.exited
            ∧ w.obs.headIsNil = true ∧ w.obs.running = false)
          ∨ ((wstep (wstep w o b).1 o' b').1.pc = WPc.popHead
              ∧ w.obs.headIsNil = false))
    ∧ (∀ inputs : List (SharedObs × Bool), (∀ p ∈ inputs, p.2 = true) →
        ∀ acc ∈ (wrun winit inputs).2, acc.locked = true) := by
  refine ⟨?_, ?_, ?_, ?_⟩
  · intro w o b hlk
    obtain ⟨pc, lk, x, y⟩ := w
    obtain ⟨i, j⟩ := o
    subst hlk
    cases pc <;> cases x <;> cases y <;> cases i <;> cases j <;> cases b <;> decide
  · intro w o b hpc
    obtain ⟨pc, lk, x, y⟩ := w
    obtain ⟨i, j⟩ := o
    subst hpc
    cases lk <;> cases x <;> cases y <;> cases i <;> cases j <;> cases b <;> decide
  · intro w o o' b b' hlk hpc
    obtain ⟨pc, lk, x, y⟩ := w
    obtain ⟨i, j⟩ := o
    obtain ⟨i', j'⟩ := o'
    subst hlk
    subst hpc
    cases x <;> cases y <;> cases i <;> cases j <;> cases i' <;> cases j' <;>
      cases b <;> cases b' <;> decide
  · intro inputs hall acc hacc
    exact wrun_allok inputs winit (by decide) hall acc hacc

def wAfter : WState :=
  { pc := WPc.afterWhile, lockHeld := true,
    obs := { headIsNil := true, running := false } }

def wExit : WState :=
  { pc := WPc.exited, lockHeld := false,
    obs := { headIsNil := true, running := true } }

def obsTT : SharedObs := { headIsNil := true, running := true }

def obsTF : SharedObs := { headIsNil := true, running := false }

theorem worker_exit_amended_witness :
    (wstep wAfter obsTT true).1.pc = WPc.exited
    ∧ wstep wExit obsTT true = (wExit, [])
    ∧ (∀ acc ∈ (wrun winit [(obsTF, true)]).2, acc.locked = true) := by
  refine ⟨?_, ?_, ?_⟩
  · exact (worker_exit_amended.1 wAfter obsTT true rfl).mpr (Or.inr ⟨rfl, rfl, rfl⟩)
  · exact worker_exit_amended.2.1 wExit obsTT true rfl
  · exact worker_exit_amended.2.2.2 [(obsTF, true)] (by decide)

/-- C5: submitting with a non-NULL argument stores in the new record a
pointer to a freshly allocated buffer whose contents are an exact copy of
the caller's `argumentSize` bytes; the buffer's address is distinct from
every address allocated before the call (in particular from the caller's
own buffer), so the record never aliases caller memory.  Submitting with a
NULL argument stores a NULL pointer, and `argsSize` has no effect at all
on the resulting state. -/
theorem submit_deep_copy (s : PoolState) (h : Reachable s) (f : Nat) (bytes : List Nat)
    (n : Nat) (hn : n = bytes.length) :
    (∃ nd : Node,
        heapFind (thread_pool_add_task s f (some bytes) n).nodes s.nextAddr = some nd
          ∧ nd.task = f ∧ nd.taskArgs = some (s.nextAddr + 1))
      ∧ heapFind (thread_pool_add_task s f (some bytes) n).bufs (s.nextAddr + 1)
          = some bytes
      ∧ (s.nextAddr + 1) ∉ s.bufs.map Prod.fst
      ∧ (s.nextAddr + 1) ∉ s.nodes.map Prod.fst
      ∧ (∀ m : Nat, thread_pool_add_task s f none n = thread_pool_add_task s f none m)
      ∧ (∃ nd : Node,
          heapFind (thread_pool_add_task s f none n).nodes s.nextAddr = some nd
            ∧ nd.task = f ∧ nd.taskArgs = none) := by
  have hinv := reachable_inv s h
  have hfreshB : (s.nextAddr + 1) ∉ s.bufs.map Prod.fst := by
    intro hm
    have := hinv.bufsLt _ hm
    omega
  have hfreshN : (s.nextAddr + 1) ∉ s.nodes.map Prod.fst := by
    intro hm
    have := hinv.nodesLt _ hm
    omega
  refine ⟨?_, ?_, hfreshB, hfreshN, fun m => rfl, ?_⟩
  · refine ⟨{ task := f, taskArgs := some (s.nextAddr + 1), next := none }, ?_, rfl, rfl⟩
    exact enqueueNode_find s
      { s with bufs := s.bufs ++ [(s.nextAddr + 1, bytes.take n)],
               nextAddr := s.nextAddr + 2 }
      hinv rfl rfl rfl _
  · show heapFind (enqueueNode
        { s with bufs := s.bufs ++ [(s.nextAddr + 1, bytes.take n)],
                 nextAddr := s.nextAddr + 2 }
        s.nextAddr { task := f, taskArgs := some (s.nextAddr + 1), next := none }).bufs
        (s.nextAddr + 1) = some bytes
    rw [enqueueNode_bufs]
    show heapFind (s.bufs ++ [(s.nextAddr + 1, bytes.take n)]) (s.nextAddr + 1)
      = some bytes
    rw [heapFind_append_fresh _ _ _ hfreshB, hn, List.take_length]
  · refine ⟨{ task := f, taskArgs := none, next := none }, ?_, rfl, rfl⟩
    exact enqueueNode_find s { s with nextAddr := s.nextAddr + 1 } hinv rfl rfl rfl _

theorem submit_deep_copy_witness :
    (∃ nd : Node,
        heapFind (thread_pool_add_task exS0 4 (some [3, 4]) 2).nodes exS0.nextAddr
          = some nd ∧ nd.task = 4 ∧ nd.taskArgs = some (exS0.nextAddr + 1))
      ∧ heapFind (thread_pool_add_task exS0 4 (some [3, 4]) 2).bufs (exS0.nextAddr + 1)
          = some [3, 4]
      ∧ (exS0.nextAddr + 1) ∉ exS0.bufs.map Prod.fst
      ∧ (exS0.nextAddr + 1) ∉ exS0.nodes.map Prod.fst
      ∧ (∀ m : Nat, thread_pool_add_task exS0 4 none 2 = thread_pool_add_task exS0 4 none m)
      ∧ (∃ nd : Node,
          heapFind (thread_pool_add_task exS0 4 none 2).nodes exS0.nextAddr = some nd
            ∧ nd.task = 4 ∧ nd.taskArgs = none) :=
  submit_deep_copy exS0 (Reachable.init 2) 4 [3, 4] 2 rfl

/-- C6: on any reachable pool, `thread_pool_destroy` first joins (the
result has `running = false`), then frees every record still queued
together with its argument buffer — the result has an empty node heap, an
empty buffer heap, and a NULL head — and it never invokes a queued
callable: the `executed` and `dequeued` histories are exactly those of the
state being destroyed. -/
theorem destroy_drains_discards (s : PoolState) (h : Reachable s) :
    ∃ s' : PoolState, thread_pool_destroy (some s) = Except.ok s'
      ∧ s'.running = false
      ∧ s'.taskQueueHead = none
      ∧ s'.nodes = [] ∧ s'.bufs = []
      ∧ s'.executed = s.executed ∧ s'.dequeued = s.dequeued := by
  have hinv := reachable_inv s h
  have hinvJ := inv_join s hinv
  obtain ⟨hJn, hJb, hJh, hJt, hJe, hJd, hJs, hJth, hJx⟩ := joinAllState_preserves s
  have hd := drainLoop_spec (joinAllState s).nodes.length (joinAllState s)
    hinvJ.chain hinvJ.nodesSorted hinvJ.bufsMatch hinvJ.bufsSorted (Nat.le_refl _)
  refine ⟨drainLoop (joinAllState s).nodes.length (joinAllState s),
    rfl, ?_, hd.1, hd.2.1, hd.2.2.1, ?_, ?_⟩
  · rw [hd.2.2.2.1]
    exact joinAllState_running s
  · rw [hd.2.2.2.2.1, hJe]
  · rw [hd.2.2.2.2.2.1, hJd]

theorem destroy_drains_discards_witness :
    ∃ s' : PoolState, thread_pool_destroy (some exS2) = Except.ok s'
      ∧ s'.running = false
      ∧ s'.taskQueueHead = none
      ∧ s'.nodes = [] ∧ s'.bufs = []
      ∧ s'.executed = exS2.executed ∧ s'.dequeued = exS2.dequeued :=
  destroy_drains_discards exS2 exS2_reachable

/-- C7: `thread_pool_join_all` is idempotent — on a NULL handle it returns
immediately; on a pool whose `running` flag is already false it returns
immediately leaving every field unchanged; and on any handle, calling it
twice equals calling it once. -/
theorem join_all_idempotent (p : Option PoolState) (s : PoolState)
    (h : s.running = false) :
    thread_pool_join_all none = none
      ∧ thread_pool_join_all (some s) = some s
      ∧ thread_pool_join_all (thread_pool_join_all p) = thread_pool_join_all p := by
  refine ⟨rfl, ?_, ?_⟩
  · show some (joinAllState s) = some s
    rw [joinAllState_not_running s h]
  · cases p with
    | none => rfl
    | some s₀ =>
        show some (joinAllState (joinAllState s₀)) = some (joinAllState s₀)
        rw [joinAllState_not_running (joinAllState s₀) (joinAllState_running s₀)]

theorem join_all_idempotent_witness :
    thread_pool_join_all none = none
      ∧ thread_pool_join_all (some (joinAllState exS2)) = some (joinAllState exS2)
      ∧ thread_pool_join_all (thread_pool_join_all (some exS2))
          = thread_pool_join_all (some exS2) :=
  join_all_idempotent (some exS2) (joinAllState exS2) (joinAllState_running exS2)

/-- C8: the `running` flag is monotonically falling — it is true in a
freshly created pool, and once it is false no sequence of pool operations
(submits, worker dequeues, joins) ever makes it true again. -/
theorem running_monotone (n : Nat) (s : PoolState) (es : List Event)
    (h : s.running = false) :
    (create_thread_pool n).running = true ∧ (runEvents s es).running = false :=
  ⟨rfl, runEvents_running es s h⟩

theorem running_monotone_witness :
    (create_thread_pool 1).running = true
      ∧ (runEvents (joinAllState (create_thread_pool 1))
          [Event.submit 3 none 0, Event.dequeue]).running = false :=
  running_monotone 1 (joinAllState (create_thread_pool 1))
    [Event.submit 3 none 0, Event.dequeue] rfl

/-- C9: whenever `create_thread_pool` returns at all, it returns a fully
constructed pool — empty queue (head and tail NULL), `running` true,
exactly `threadNum` spawned workers, nothing allocated — and whenever any
`safe_malloc` or any `CreateThread` call fails, the process terminates
(the function returns nothing), so no partially constructed pool is ever
handed out. -/
theorem create_pool_shape (n : Nat) (m1 m2 : Bool) (ok : Nat → Bool) :
    (∀ p : PoolState, create_thread_pool_run n m1 m2 ok = some p →
        p.taskQueueHead = none ∧ p.taskQueueTail = none ∧ p.running = true
          ∧ p.threads.length = n ∧ p.nodes = [] ∧ p.bufs = [])
      ∧ ((m1 = false ∨ m2 = false ∨ ∃ i, i < n ∧ ok i = false) →
          create_thread_pool_run n m1 m2 ok = none) := by
  constructor
  · intro p hp
    unfold create_thread_pool_run at hp
    cases m1 with
    | false => simp at hp
    | true =>
        cases m2 with
        | false => simp at hp
        | true =>
            simp only [if_true] at hp
            cases hs : spawnThreads ok 0 n with
            | none => rw [hs] at hp; simp at hp
            | some ts =>
                rw [hs] at hp
                simp only [Option.map_some'] at hp
                have hts := spawnThreads_length ok n 0 ts hs
                rw [← Option.some.inj hp]
                exact ⟨rfl, rfl, rfl, hts, rfl, rfl⟩
  · intro hfail
    unfold create_thread_pool_run
    cases m1 with
    | false => rfl
    | true =>
        cases m2 with
        | false => rfl
        | true =>
            simp only [if_true]
            rcases hfail with hfail | hfail | ⟨i, hin, hi⟩
            · exact absurd hfail (by simp)
            · exact absurd hfail (by simp)
            · rw [spawnThreads_fail ok n 0 ⟨i, Nat.zero_le i, by omega, hi⟩]
              rfl

theorem create_pool_shape_witness :
    ((create_thread_pool 2).taskQueueHead = none
      ∧ (create_thread_pool 2).taskQueueTail = none
      ∧ (create_thread_pool 2).running = true
      ∧ (create_thread_pool 2).threads.length = 2
      ∧ (create_thread_pool 2).nodes = [] ∧ (create_thread_pool 2).bufs = [])
    ∧ create_thread_pool_run 2 true true (fun i => decide (i ≠ 1)) = none := by
  constructor
  · exact (create_pool_shape 2 true true (fun _ => true)).1 (create_thread_pool 2)
      (by decide)
  · exact (create_pool_shape 2 true true (fun i => decide (i ≠ 1))).2
      (Or.inr (Or.inr ⟨1, by omega, by decide⟩))

/-- C10: the shutdown interface treats a NULL pool handle asymmetrically —
`thread_pool_join_all(NULL)` returns immediately with no effect, but
`thread_pool_destroy(NULL)`, after the tolerant join step, unconditionally
dereferences `pool->taskQueueHead` and faults; on any non-NULL pool
`thread_pool_destroy` returns normally. -/
theorem null_handle_asymmetry :
    thread_pool_join_all none = none
      ∧ thread_pool_destroy none = Except.error ()
      ∧ ∀ s : PoolState, ∃ s' : PoolState, thread_pool_destroy (some s) = Except.ok s' :=
  ⟨rfl, rfl, fun s => ⟨drainLoop (joinAllState s).nodes.length (joinAllState s), rfl⟩⟩
